import Mathlib

/-!
# A verification development for `OsProject.c` (the `uinxsh` shell)

The C program is embedded shallowly.  A C string is the list of the characters that
precede its terminating NUL; an argument vector (`char **`) is the list of the slots
that `parse_input` writes, a token being `some t` and the null sentinel `none`.
The loop body of `shell_loop` is a function from the History Slot and the buffer filled
by `fgets` to the calls it makes, in program order.
-/

set_option autoImplicit false

namespace OsProject

/-! ## Constants (lines 15-16) -/

/-- The constant `MAX_ARGS`, defined as 64. -/
def MAX_ARGS : Nat := 64

/-- The constant `MAX_LINE`, defined as 1024. -/
def MAX_LINE : Nat := 1024

/-- A C string: the characters before the terminating NUL. -/
abbrev CStr := List Char

/-- The NUL character that ends a C string. -/
def NUL : Char := Char.ofNat 0

/-- The C string held by a buffer: everything before the first NUL.  Every library
function the shell applies to `line` (`strcmp`, `strdup`, `strncmp`, `strchr`, `strtok`)
sees only this part of what `fgets` stored. -/
def cstr (buf : List Char) : CStr := buf.takeWhile (fun c => c != NUL)

/-! ## Tokenizer: `strtok` and `parse_input` (lines 20-33) -/

/-- Membership in the delimiter set `" \t\n"` given to `strtok`. -/
def isDelim (c : Char) : Bool := c == ' ' || c == '\t' || c == '\n'

/-- One call of `strtok` on the text at the saved position: skip the leading delimiters
(`strspn`); at the end of the text return no token; otherwise the token runs to the next
delimiter (`strpbrk`), which is overwritten by NUL, and the saved position moves past it
(or to the end of the text when no delimiter follows).  The result is the token and the
text at the new saved position. -/
def strtok (s : CStr) : Option CStr × CStr :=
  match s.dropWhile isDelim with
  | [] => (none, [])
  | c :: cs =>
    (some ((c :: cs).takeWhile (fun x => !isDelim x)),
     ((c :: cs).dropWhile (fun x => !isDelim x)).drop 1)

/-- The `while (token && i < MAX_ARGS - 1)` loop of `parse_input`.  `room` is
`MAX_ARGS - 1 - i`; `args` holds the slots `0 .. i-1` written so far; `token` is the
result of the latest `strtok` call and `olds` the text at its saved position. -/
def parse_loop : Nat → List CStr → Option CStr → CStr → List CStr
  | 0, args, _, _ => args
  | _ + 1, args, none, _ => args
  | room + 1, args, some token, olds =>
    parse_loop room (args ++ [token]) (strtok olds).1 (strtok olds).2

/-- An argument vector as `parse_input` leaves it: the written slots of the `malloc`ed
array, `some t` for a token and `none` for the null sentinel. -/
abbrev ArgVec := List (Option CStr)

/-- The function `parse_input`: slots `0 .. i-1` receive the tokens, slot `i` receives `NULL`. -/
def parse_input (line : CStr) : ArgVec :=
  (parse_loop (MAX_ARGS - 1) [] (strtok line).1 (strtok line).2).map some ++ [none]

/-- The arguments a consumer of a `char **` sees: the tokens before the first null slot. -/
def argv (a : ArgVec) : List CStr := (a.takeWhile Option.isSome).filterMap id

/-- The value read from `args[k]`: `none` when the slot holds `NULL` or was never written. -/
def slot (a : ArgVec) (k : Nat) : Option CStr := (a.get? k).join

/-- Specification side of the tokenizer, following the words of the specification: the
maximal runs of characters other than space, tab and newline, in their order in the line.
The line is cut at every delimiter and the empty pieces are dropped. -/
def runs (line : CStr) : List CStr := (line.splitOnP isDelim).filter (fun t => !t.isEmpty)

/-! ## String functions used by the loop -/

/-- The test `strcmp(a, b) == 0`. -/
def strcmp_eq (a b : CStr) : Bool := a == b

/-- The test `strncmp(a, b, n) == 0`: the first `n` characters agree, a shorter string ending the
comparison at its NUL. -/
def strncmp_eq (a b : CStr) (n : Nat) : Bool := a.take n == b.take n

/-- The call `strchr(s, c)`: the offset of the first occurrence of `c`, `none` for `NULL`. -/
def strchr : CStr → Char → Option Nat
  | [], _ => none
  | x :: xs, c => if x = c then some 0 else (strchr xs c).map (fun k => k + 1)

/-- The predicate `isspace` in the C locale. -/
def isspace (c : Char) : Bool :=
  c == ' ' || c == '\t' || c == '\n' || c == Char.ofNat 11 || c == Char.ofNat 12 || c == '\r'

/-- The value of a digit sequence read left to right in base ten. -/
def digits_value (ds : CStr) : Nat := ds.foldl (fun acc d => 10 * acc + (d.toNat - 48)) 0

/-- The call `strtol(s, NULL, 10)` on a 64-bit `long`: optional white space, optional sign, the
longest run of decimal digits (none gives 0), clamped to `LONG_MIN .. LONG_MAX`. -/
def strtol (s : CStr) : Int :=
  let body := s.dropWhile isspace
  let neg := body.head? == some '-'
  let rest := if body.head? == some '-' || body.head? == some '+' then body.drop 1 else body
  let n : Int := digits_value (rest.takeWhile Char.isDigit)
  let v := if neg then -n else n
  max (-(2 ^ 63)) (min v (2 ^ 63 - 1))

/-- The call `atol(s)` is `strtol(s, NULL, 10)`. -/
def atol (s : CStr) : Int := strtol s

/-- The call `atoi(s)` is `(int) strtol(s, NULL, 10)`: the low 32 bits, read in two's complement. -/
def atoi (s : CStr) : Int := (strtol s + 2 ^ 31) % 2 ^ 32 - 2 ^ 31

/-! ## The loop body of `shell_loop` (lines 84-161) -/

/-- The calls the loop makes, in program order. -/
inductive Event where
  /-- the prompt `printf("uinxsh> ")` before `fgets` (line 86) -/
  | prompt
  /-- the `printf` of a message or of the recalled line (lines 96, 100) -/
  | print (text : CStr)
  /-- the call `execute_pipe(left, right)` (line 119) -/
  | execute_pipe (left right : ArgVec)
  /-- the call `chdir(args[1])` (line 134) -/
  | chdir (path : Option CStr)
  /-- the calls `getcwd` and `printf` of the directory (lines 139-140) -/
  | pwd
  /-- the call `run_sudoku()` (line 145) -/
  | run_sudoku
  /-- the call `monte_carlo(processes, points)` (line 150) -/
  | monte_carlo (processes points : Int)
  /-- the call `execute_command(args, background)` (line 154) -/
  | execute_command (args : ArgVec) (background : Bool)
  /-- the sweep `while (waitpid(-1, NULL, WNOHANG) > 0);` (lines 159-160) -/
  | reap
  deriving DecidableEq, Repr

/-- How the loop body is left. -/
inductive Control where
  /-- a `continue`, or the end of the body: the loop goes on to the next prompt -/
  | again
  /-- the `break` at line 109: the Terminate state -/
  | stop
  /-- a null or unwritten slot handed to `atoi`/`atol`: undefined behaviour -/
  | fault
  deriving DecidableEq, Repr

/-- Number of `fork()` calls the callee behind an event makes: two in `execute_pipe`
(lines 56, 65), one in `execute_command` (line 36), one per worker in `monte_carlo`
(lines 228-230); the other calls create no process. -/
def forks : Event → Nat
  | .execute_pipe _ _ => 2
  | .execute_command _ _ => 1
  | .monte_carlo processes _ => processes.toNat
  | _ => 0

/-- Lines 108-160: what the loop body does with the line it settled on.  The result is
the calls made and the way the body is left. -/
def dispatch (line : CStr) : List Event × Control :=
  if strncmp_eq line "exit".toList 4 then ([], .stop)
  else
    let background := (strchr line '&').isSome
    match strchr line '|' with
    | some pipe_pos =>
      let left := parse_input (line.take pipe_pos)
      let right := parse_input (line.drop (pipe_pos + 1))
      ([.execute_pipe left right], .again)
    | none =>
      let args := parse_input line
      match slot args 0 with
      | none => ([], .again)
      | some verb =>
        if strcmp_eq verb "cd".toList then ([.chdir (slot args 1), .reap], .again)
        else if strcmp_eq verb "pwd".toList then ([.pwd, .reap], .again)
        else if strcmp_eq verb "sudoku".toList then ([.run_sudoku, .reap], .again)
        else if strcmp_eq verb "montecarlo".toList then
          match slot args 1, slot args 2 with
          | some workers, some points => ([.monte_carlo (atoi workers) (atol points), .reap], .again)
          | _, _ => ([], .fault)
        else ([.execute_command args background, .reap], .again)

/-- The outcome of one loop body: the calls made, the History Slot afterwards, and the way the
body is left. -/
structure Iter where
  events : List Event
  last_command : Option CStr
  control : Control
  deriving DecidableEq, Repr

/-- Lines 92-160, one loop body after `fgets` filled `buf`.  `last_command` is the History
Slot, `none` for `NULL`. -/
def shell_iter (last_command : Option CStr) (buf : List Char) : Iter :=
  if strcmp_eq (cstr buf) "!!\n".toList then
    match last_command with
    | none => ⟨[.print "No commands in history\n".toList], none, .again⟩
    | some stored => ⟨.print stored :: (dispatch stored).1, some stored, (dispatch stored).2⟩
  else ⟨(dispatch (cstr buf)).1, some (cstr buf), (dispatch (cstr buf)).2⟩

/-- How `shell_loop` ended on the input it was given. -/
inductive Status where
  /-- end of input: `fgets` returned `NULL` (line 90) -/
  | eof
  /-- the `break` at line 109 -/
  | exited
  /-- undefined behaviour in an iteration -/
  | crashed
  deriving DecidableEq, Repr

/-- A run of `shell_loop`: the calls made, the History Slot at the end, the number of loop
bodies run (lines read), and how the loop ended. -/
structure Run where
  events : List Event
  last_command : Option CStr
  iters : Nat
  status : Status
  deriving DecidableEq, Repr

/-- The function `shell_loop` on the successive buffers `fgets` delivers; after the last one
`fgets` returns `NULL`. -/
def shell_loop (last_command : Option CStr) : List (List Char) → Run
  | [] => ⟨[.prompt], last_command, 0, .eof⟩
  | buf :: rest =>
    match (shell_iter last_command buf).control with
    | .again =>
      let r := shell_loop (shell_iter last_command buf).last_command rest
      ⟨.prompt :: (shell_iter last_command buf).events ++ r.events, r.last_command,
        r.iters + 1, r.status⟩
    | .stop =>
      ⟨.prompt :: (shell_iter last_command buf).events,
        (shell_iter last_command buf).last_command, 1, .exited⟩
    | .fault =>
      ⟨.prompt :: (shell_iter last_command buf).events,
        (shell_iter last_command buf).last_command, 1, .crashed⟩

/-- Specification side of the History Slot, following the words of the specification: the raw
text of the most recent entered line that was not the recall line, `none` when there is none. -/
def history_spec (lines : List (List Char)) : Option CStr :=
  ((lines.map cstr).filter (fun l => l != "!!\n".toList)).getLast?

/-- The verb of a line: its first whitespace-delimited token. -/
def verb (line : CStr) : Option CStr := (runs line).head?

/-- Invariant of the loop: the History Slot never holds a line that begins with `exit` while the loop is running. -/
def slot_safe (last : Option CStr) : Prop := ∀ h, last = some h → h.take 4 ≠ "exit".toList

/-! ## The Validator: `sudoku`, `check_row`, `run_sudoku` (lines 166-216) -/

/-- A value of type `int [9][9]`. -/
abbrev Grid := Fin 9 → Fin 9 → Int

/-- The initialiser of the global `sudoku` (lines 166-175), row by row. -/
def sudoku_rows : List (List Int) :=
  [[5, 3, 4, 6, 7, 8, 9, 1, 2],
   [6, 7, 2, 1, 9, 5, 3, 4, 8],
   [1, 9, 8, 3, 4, 2, 5, 6, 7],
   [8, 5, 9, 7, 6, 1, 4, 2, 3],
   [4, 2, 6, 8, 5, 3, 7, 9, 1],
   [7, 1, 3, 9, 2, 4, 8, 5, 6],
   [9, 6, 1, 5, 3, 7, 2, 8, 4],
   [2, 8, 7, 4, 1, 9, 6, 3, 5],
   [3, 4, 5, 2, 8, 6, 1, 7, 9]]

/-- The global `sudoku`. -/
def sudoku : Grid := fun r c => (sudoku_rows.getD r.val []).getD c.val 0

/-- The `for (c = 0; c < 9; c++)` loop of `check_row` over the columns still to visit, with
the array `seen`.  `some false` is `pthread_exit((void *)0)`, `some true` is
`pthread_exit((void *)1)`, and `none` stands for an index outside `seen[10]`. -/
def check_row_loop (row : Fin 9 → Int) : List (Fin 9) → List Bool → Option Bool
  | [], _ => some true
  | c :: cs, seen =>
    if row c < 0 ∨ 10 ≤ row c then none
    else if seen.getD (row c).toNat false then some false
    else check_row_loop row cs (seen.set (row c).toNat true)

/-- The thread body `check_row` for row `r`, starting from `int seen[10] = {0}`. -/
def check_row (g : Grid) (r : Fin 9) : Option Bool :=
  check_row_loop (g r) (List.finRange 9) (List.replicate 10 false)

/-- The joining loop of `run_sudoku` (lines 204-210) over the threads still to join: `valid`
becomes 0 when a thread returned 0. -/
def join_loop (g : Grid) : List (Fin 9) → Bool → Option Bool
  | [], valid => some valid
  | i :: rest, valid =>
    match check_row g i with
    | none => none
    | some res => join_loop g rest (if res = false then false else valid)

/-- The function `run_sudoku` on the grid `g`: one `check_row` thread per row, joined in row
order, starting from `valid = 1`.  The result is the line printed. -/
def run_sudoku (g : Grid) : Option CStr :=
  (join_loop g (List.finRange 9) true).map fun valid =>
    if valid then "Sudoku is valid\n".toList else "Sudoku is invalid\n".toList

/-- The grid `g` with the cell at row `r`, column `c` replaced by `v`. -/
def set_cell (g : Grid) (r c : Fin 9) (v : Int) : Grid :=
  fun r2 c2 => if r2 = r ∧ c2 = c then v else g r2 c2

/-! ## Processes: `execute_command`, `execute_pipe` and the sweep (lines 34-78, 159-160)

The shell's children are kept with the instant at which each terminates; a child whose
instant has passed and that was not waited for is a zombie.  `fork` failure is not modelled. -/

/-- A child of the shell that has not been waited for. -/
structure Child where
  pid : Nat
  exit_at : Nat
  deriving DecidableEq, Repr

/-- The clock and the shell's children that have not been waited for. -/
structure Procs where
  now : Nat
  next_pid : Nat
  children : List Child
  deriving DecidableEq, Repr

/-- The call `fork()` in the parent, for a child that will run for `runtime` before it terminates. -/
def fork (w : Procs) (runtime : Nat) : Procs × Nat :=
  ({ w with next_pid := w.next_pid + 1,
            children := w.children ++ [⟨w.next_pid, w.now + runtime⟩] }, w.next_pid)

/-- The child that terminates first, the earliest created among equals. -/
def first_to_exit : List Child → Option Child
  | [] => none
  | c :: cs =>
    match first_to_exit cs with
    | none => some c
    | some d => if c.exit_at ≤ d.exit_at then some c else some d

/-- The call `wait(NULL)`: with no child it fails at once; otherwise it blocks until some child, whichever
it is, has terminated and collects that one. -/
def wait_any (w : Procs) : Procs × Option Nat :=
  match first_to_exit w.children with
  | none => (w, none)
  | some c =>
    ({ w with now := max w.now c.exit_at,
              children := w.children.filter (fun d => d.pid != c.pid) }, some c.pid)

/-- The call `waitpid(pid, NULL, 0)`: blocks until the child `pid` has terminated and collects it. -/
def waitpid (w : Procs) (pid : Nat) : Procs :=
  match w.children.find? (fun c => c.pid == pid) with
  | none => w
  | some c =>
    { w with now := max w.now c.exit_at,
             children := w.children.filter (fun d => d.pid != pid) }

/-- The test `waitpid(-1, NULL, WNOHANG) > 0`: collects one child that has already terminated, if any. -/
def waitpid_nohang (w : Procs) : Procs × Bool :=
  match w.children.find? (fun c => c.exit_at ≤ w.now) with
  | none => (w, false)
  | some c => ({ w with children := w.children.filter (fun d => d.pid != c.pid) }, true)

/-- The sweep `while (waitpid(-1, NULL, WNOHANG) > 0);` run for at most `n` successful calls. -/
def reap_loop : Nat → Procs → Procs
  | 0, w => w
  | n + 1, w => if (waitpid_nohang w).2 then reap_loop n (waitpid_nohang w).1 else w

/-- The sweep of lines 159-160; every successful call removes a child, so the number of
children bounds the number of turns. -/
def reap (w : Procs) : Procs := reap_loop w.children.length w

/-- The function `execute_command` in the parent: `fork`, then `waitpid` on that child unless
`background` is set. -/
def execute_command (w : Procs) (runtime : Nat) (background : Bool) : Procs :=
  if background then (fork w runtime).1 else waitpid (fork w runtime).1 (fork w runtime).2

/-- The function `execute_pipe` in the parent: two `fork`s, then two `wait(NULL)`.  The
result carries the pids of the left and right child. -/
def execute_pipe (w : Procs) (left_runtime right_runtime : Nat) : Procs × Nat × Nat :=
  let l := fork w left_runtime
  let r := fork l.1 right_runtime
  ((wait_any (wait_any r.1).1).1, l.2, r.2)

/-- The call `fgets` blocking for `delay` until the next line arrives. -/
def fgets_wait (w : Procs) (delay : Nat) : Procs := { w with now := w.now + delay }

/-- The calls of two iterations on a fresh shell: a line `prog &` whose program runs for
`bg_runtime`, the sweep that ends that iteration, `fgets` blocking for `delay`, then a line
`left | right` whose programs run for `left_runtime` and `right_runtime`. -/
def background_then_pipeline (bg_runtime delay left_runtime right_runtime : Nat) :
    Procs × Nat × Nat :=
  execute_pipe (fgets_wait (reap (execute_command ⟨0, 1, []⟩ bg_runtime true)) delay)
    left_runtime right_runtime

/-- The child `pid` has not terminated yet. -/
def running (w : Procs) (pid : Nat) : Bool :=
  w.children.any (fun c => c.pid == pid && decide (w.now < c.exit_at))

/-! ## The tokenizer against its specification -/

theorem runs_nil : runs [] = [] := by
  simp [runs]

theorem runs_cons_delim (c : Char) (s : CStr) (h : isDelim c = true) : runs (c :: s) = runs s := by
  simp [runs, List.splitOnP_cons, h]

theorem runs_dropWhile (s : CStr) : runs (s.dropWhile isDelim) = runs s := by
  induction s with
  | nil => rfl
  | cons c s ih =>
    by_cases h : isDelim c = true
    · rw [List.dropWhile_cons_of_pos h, ih, runs_cons_delim c s h]
    · rw [List.dropWhile_cons_of_neg h]

theorem runs_token (c : Char) (cs : CStr) (h : isDelim c = false) :
    runs (c :: cs) = (c :: cs).takeWhile (fun x => !isDelim x)
      :: runs (((c :: cs).dropWhile (fun x => !isDelim x)).drop 1) := by
  have hsplit := List.takeWhile_append_dropWhile (fun x => !isDelim x) (c :: cs)
  have htok : ∀ x ∈ (c :: cs).takeWhile (fun x => !isDelim x), ¬ (isDelim x = true) := by
    intro x hx
    have := List.mem_takeWhile_imp hx
    simpa using this
  have hne : (c :: cs).takeWhile (fun x => !isDelim x) ≠ [] := by
    simp [List.takeWhile_cons, h]
  cases hrest : (c :: cs).dropWhile (fun x => !isDelim x) with
  | nil =>
    have hall : (c :: cs).takeWhile (fun x => !isDelim x) = c :: cs := by
      rw [hrest, List.append_nil] at hsplit; exact hsplit
    rw [hall] at htok ⊢
    simp only [List.drop_nil, runs_nil]
    unfold runs
    rw [List.splitOnP_eq_single isDelim _ htok]
    simp
  | cons d r =>
    have hd : isDelim d = true := by
      have := List.head_dropWhile_not (fun x => !isDelim x) (c :: cs) (by rw [hrest]; simp)
      simp only [hrest, List.head_cons] at this
      simpa using this
    have : runs (c :: cs) = runs ((c :: cs).takeWhile (fun x => !isDelim x) ++ d :: r) := by
      rw [← hrest, hsplit]
    rw [this]
    unfold runs
    rw [List.splitOnP_first isDelim _ htok d hd r]
    simp [hne]

theorem strtok_none (s : CStr) (h : (strtok s).1 = none) : runs s = [] := by
  unfold strtok at h
  cases hd : s.dropWhile isDelim with
  | nil => rw [← runs_dropWhile, hd, runs_nil]
  | cons c cs => rw [hd] at h; simp at h

theorem strtok_some (s : CStr) (t : CStr) (h : (strtok s).1 = some t) :
    runs s = t :: runs (strtok s).2 := by
  unfold strtok at h ⊢
  cases hd : s.dropWhile isDelim with
  | nil => rw [hd] at h; simp at h
  | cons c cs =>
    rw [hd] at h
    simp only [Option.some.injEq] at h
    have hc : isDelim c = false := by
      have := List.head_dropWhile_not isDelim s (by rw [hd]; simp)
      simp only [hd, List.head_cons] at this
      simpa using this
    rw [← runs_dropWhile, hd, runs_token c cs hc, ← h]

theorem parse_loop_runs (room : Nat) (args : List CStr) (s : CStr) :
    parse_loop room args (strtok s).1 (strtok s).2 = args ++ (runs s).take room := by
  induction room generalizing args s with
  | zero => simp [parse_loop]
  | succ n ih =>
    cases ht : (strtok s).1 with
    | none => simp [parse_loop, strtok_none s ht]
    | some t =>
      rw [parse_loop, ih, strtok_some s t ht]
      simp


theorem argv_map_some (ts : List CStr) : argv (ts.map some ++ [none]) = ts := by
  induction ts with
  | nil => rfl
  | cons t ts ih =>
    simp only [argv] at ih
    simp [argv, List.takeWhile_cons, ih]

theorem slot_map_some (ts : List CStr) (k : Nat) : slot (ts.map some ++ [none]) k = ts.get? k := by
  induction ts generalizing k with
  | nil => cases k <;> simp [slot]
  | cons t ts ih =>
    cases k with
    | zero => simp [slot]
    | succ k => simpa [slot] using ih k

theorem parse_input_eq (line : CStr) :
    parse_input line = ((runs line).take (MAX_ARGS - 1)).map some ++ [none] := by
  unfold parse_input
  rw [parse_loop_runs]
  simp

theorem argv_parse_input (line : CStr) : argv (parse_input line) = (runs line).take 63 := by
  rw [parse_input_eq, argv_map_some]
  rfl

theorem runs_ne_nil (line : CStr) : ∀ t ∈ runs line, t ≠ [] := by
  intro t ht
  unfold runs at ht
  have := (List.mem_filter.mp ht).2
  intro h
  simp [h] at this

/-- No run of a line holds a delimiter. -/
theorem runs_no_delim (n : Nat) : ∀ s : CStr, s.length ≤ n →
    ∀ t ∈ runs s, ∀ c ∈ t, isDelim c = false := by
  induction n with
  | zero =>
    intro s hl t ht
    have : s = [] := List.length_eq_zero.mp (Nat.le_zero.mp hl)
    rw [this, runs_nil] at ht
    cases ht
  | succ n ih =>
    intro s hl t ht c hc
    cases s with
    | nil =>
      rw [runs_nil] at ht
      cases ht
    | cons x xs =>
      by_cases hx : isDelim x = true
      · rw [runs_cons_delim x xs hx] at ht
        exact ih xs (by simpa using hl) t ht c hc
      · have hx2 : isDelim x = false := by simpa using hx
        rw [runs_token x xs hx2] at ht
        rcases List.mem_cons.mp ht with h1 | h2
        · rw [h1] at hc
          have := List.mem_takeWhile_imp hc
          simpa using this
        · have hlen : (((x :: xs).dropWhile (fun y => !isDelim y)).drop 1).length ≤ n := by
            have h3 : ((x :: xs).dropWhile (fun y => !isDelim y)).length ≤ (x :: xs).length :=
              (List.dropWhile_sublist _).length_le
            have h4 : ((x :: xs).dropWhile (fun y => !isDelim y)).length ≤ xs.length := by
              rw [List.dropWhile_cons_of_pos (by simp [hx2])]
              exact (List.dropWhile_sublist _).length_le
            simp only [List.length_drop, List.length_cons] at hl ⊢
            omega
          exact ih _ hlen t h2 c hc

/-- C1: for every line, `parse_input` returns the maximal runs of characters other than
space, tab and newline, in their order, cut to the first 63: the vector holds no empty token
and no token with a delimiter in it, its length is `min n 63` for `n` runs (so the vector is
all the runs when `n ≤ 63`), it fits the 64 slots, and the slot after the last token holds
the null sentinel. -/
theorem parse_input_maximal_runs (line : CStr) :
    parse_input line = ((runs line).take 63).map some ++ [none] ∧
    argv (parse_input line) = (runs line).take 63 ∧
    (∀ t ∈ argv (parse_input line), t ≠ [] ∧ ∀ c ∈ t, isDelim c = false) ∧
    (argv (parse_input line)).length = min (runs line).length 63 ∧
    ((runs line).length ≤ 63 → argv (parse_input line) = runs line) ∧
    (parse_input line).length ≤ MAX_ARGS ∧
    slot (parse_input line) (argv (parse_input line)).length = none := by
  refine ⟨parse_input_eq line, argv_parse_input line, ?_, ?_, ?_, ?_, ?_⟩
  · intro t ht
    rw [argv_parse_input] at ht
    exact ⟨runs_ne_nil line t (List.mem_of_mem_take ht),
      runs_no_delim line.length line (le_refl _) t (List.mem_of_mem_take ht)⟩
  · rw [argv_parse_input, List.length_take, Nat.min_comm]
  · intro h
    rw [argv_parse_input, List.take_of_length_le h]
  · rw [parse_input_eq]
    simp only [List.length_append, List.length_map, List.length_take, List.length_singleton,
      MAX_ARGS]
    omega
  · rw [argv_parse_input, parse_input_eq, slot_map_some]
    exact List.get?_eq_none.mpr (le_refl _)

/-- A line of three tokens is returned whole; a line of 70 tokens is cut to 63. -/
theorem parse_input_maximal_runs_witness :
    ((runs "ls  -l\t/tmp\n".toList).length ≤ 63 ∧
      argv (parse_input "ls  -l\t/tmp\n".toList)
        = ["ls".toList, "-l".toList, "/tmp".toList]) ∧
    ((runs (List.replicate 70 "a ".toList).flatten).length = 70 ∧
      (argv (parse_input (List.replicate 70 "a ".toList).flatten)).length = 63) :=
  ⟨⟨by decide,
      ((parse_input_maximal_runs "ls  -l\t/tmp\n".toList).2.2.2.2.1 (by decide)).trans
        (by decide)⟩,
    ⟨by decide,
      ((parse_input_maximal_runs (List.replicate 70 "a ".toList).flatten).2.2.2.1).trans
        (by decide)⟩⟩

/-! ## The History Slot -/

/-- The contribution of one entered line to the History Slot. -/
theorem history_spec_cons (buf : List Char) (rest : List (List Char)) :
    history_spec (buf :: rest) =
      (history_spec rest).or (if strcmp_eq (cstr buf) "!!\n".toList then none else some (cstr buf)) := by
  have h : buf :: rest = [buf] ++ rest := rfl
  unfold history_spec strcmp_eq
  rw [h, List.map_append, List.filter_append, List.getLast?_append]
  simp only [List.map_cons, List.map_nil, List.filter_cons, List.filter_nil, bne]
  cases cstr buf == "!!\n".toList <;> rfl

theorem or_step (x last : Option CStr) (b : Bool) (c : CStr) :
    x.or (if b = true then last else some c) =
      (x.or (if b = true then none else some c)).or last := by
  cases x <;> cases b <;> cases last <;> rfl

theorem shell_iter_last_command (last : Option CStr) (buf : List Char) :
    (shell_iter last buf).last_command =
      if strcmp_eq (cstr buf) "!!\n".toList then last else some (cstr buf) := by
  unfold shell_iter
  split
  · cases last <;> rfl
  · rfl

theorem shell_loop_last_command (last : Option CStr) (lines : List (List Char)) :
    (shell_loop last lines).last_command =
      (history_spec (lines.take (shell_loop last lines).iters)).or last := by
  induction lines generalizing last with
  | nil => simp [shell_loop, history_spec]
  | cons buf rest ih =>
    have hl := shell_iter_last_command last buf
    cases hc : (shell_iter last buf).control with
    | again =>
      have e1 : (shell_loop last (buf :: rest)).last_command =
          (shell_loop (shell_iter last buf).last_command rest).last_command := by
        simp [shell_loop, hc]
      have e2 : (shell_loop last (buf :: rest)).iters =
          (shell_loop (shell_iter last buf).last_command rest).iters + 1 := by
        simp [shell_loop, hc]
      rw [e1, e2, ih, List.take_succ_cons, history_spec_cons, hl]
      exact or_step _ _ _ _
    | stop =>
      have e1 : (shell_loop last (buf :: rest)).last_command = (shell_iter last buf).last_command := by
        simp [shell_loop, hc]
      have e2 : (shell_loop last (buf :: rest)).iters = 1 := by
        simp [shell_loop, hc]
      rw [e1, e2, hl, List.take_succ_cons, List.take_zero, history_spec_cons]
      exact or_step none _ _ _
    | fault =>
      have e1 : (shell_loop last (buf :: rest)).last_command = (shell_iter last buf).last_command := by
        simp [shell_loop, hc]
      have e2 : (shell_loop last (buf :: rest)).iters = 1 := by
        simp [shell_loop, hc]
      rw [e1, e2, hl, List.take_succ_cons, List.take_zero, history_spec_cons]
      exact or_step none _ _ _

/-- The events of `n` consecutive recall lines entered while the slot holds `pwd`. -/
theorem shell_loop_recall_pwd (n : Nat) :
    shell_loop (some "pwd\n".toList) (List.replicate n "!!\n".toList) =
      ⟨(List.replicate n [Event.prompt, Event.print "pwd\n".toList, Event.pwd, Event.reap]).flatten
          ++ [Event.prompt], some "pwd\n".toList, n, Status.eof⟩ := by
  induction n with
  | zero => rfl
  | succ n ih =>
    have hi : shell_iter (some "pwd\n".toList) "!!\n".toList =
        ⟨[Event.print "pwd\n".toList, Event.pwd, Event.reap], some "pwd\n".toList, Control.again⟩ := by
      decide
    rw [List.replicate_succ, shell_loop, hi]
    simp only [ih, List.replicate_succ, List.flatten_cons]
    rfl

/-- C2: the History Slot after a run holds the raw text of the most recent line read that was
not the recall line (the buffer `"!!\n"`), and is empty when there is none; a recall line leaves
the slot as it is; on an empty slot it only prints the notice and makes no call; on a filled slot
it echoes the stored line and does with it what the loop does with an entered line.  After
`pwd`, each of `n` consecutive recall lines executes `pwd`. -/
theorem history_slot_most_recent_entered :
    (∀ lines : List (List Char),
      (shell_loop none lines).last_command =
        history_spec (lines.take (shell_loop none lines).iters)) ∧
    (∀ (last : Option CStr) (buf : List Char), cstr buf = "!!\n".toList →
      (shell_iter last buf).last_command = last) ∧
    (∀ buf : List Char, cstr buf = "!!\n".toList →
      shell_iter none buf =
        ⟨[Event.print "No commands in history\n".toList], none, Control.again⟩) ∧
    (∀ (stored : CStr) (buf : List Char), cstr buf = "!!\n".toList →
      shell_iter (some stored) buf =
        ⟨Event.print stored :: (dispatch stored).1, some stored, (dispatch stored).2⟩) ∧
    (∀ (last : Option CStr) (buf : List Char), cstr buf ≠ "!!\n".toList →
      shell_iter last buf = ⟨(dispatch (cstr buf)).1, some (cstr buf), (dispatch (cstr buf)).2⟩) ∧
    (∀ n : Nat,
      (shell_loop none ("pwd\n".toList :: List.replicate n "!!\n".toList)).events =
        [Event.prompt, Event.pwd, Event.reap] ++
          ((List.replicate n
              [Event.prompt, Event.print "pwd\n".toList, Event.pwd, Event.reap]).flatten
            ++ [Event.prompt]) ∧
      (shell_loop none ("pwd\n".toList :: List.replicate n "!!\n".toList)).events.count Event.pwd
        = n + 1) := by
  refine ⟨?_, ?_, ?_, ?_, ?_, ?_⟩
  · intro lines
    rw [shell_loop_last_command]
    simp
  · intro last buf h
    rw [shell_iter_last_command]
    simp [strcmp_eq, h]
  · intro buf h
    simp [shell_iter, strcmp_eq, h]
  · intro stored buf h
    simp [shell_iter, strcmp_eq, h]
  · intro last buf h
    have hb : strcmp_eq (cstr buf) "!!\n".toList = false := by
      unfold strcmp_eq
      exact beq_false_of_ne h
    unfold shell_iter
    rw [hb]
    rfl
  · intro n
    have hi : shell_iter none "pwd\n".toList =
        ⟨[Event.pwd, Event.reap], some "pwd\n".toList, Control.again⟩ := by decide
    have he : (shell_loop none ("pwd\n".toList :: List.replicate n "!!\n".toList)).events =
        [Event.prompt, Event.pwd, Event.reap] ++
          ((List.replicate n
              [Event.prompt, Event.print "pwd\n".toList, Event.pwd, Event.reap]).flatten
            ++ [Event.prompt]) := by
      rw [shell_loop, hi]
      simp only [shell_loop_recall_pwd]
    refine ⟨he, ?_⟩
    rw [he]
    have hc : ∀ k : Nat, ((List.replicate k
        [Event.prompt, Event.print "pwd\n".toList, Event.pwd, Event.reap]).flatten).count Event.pwd
          = k := by
      intro k
      induction k with
      | zero => rfl
      | succ k ihk =>
        rw [List.replicate_succ, List.flatten_cons, List.count_append, ihk]
        have : List.count Event.pwd
            [Event.prompt, Event.print "pwd\n".toList, Event.pwd, Event.reap] = 1 := by decide
        omega
    rw [List.count_append, List.count_append, hc]
    have h1 : List.count Event.pwd [Event.prompt, Event.pwd, Event.reap] = 1 := by decide
    have h2 : List.count Event.pwd [Event.prompt] = 0 := by decide
    omega

/-- A recall entered while the slot holds `ls -l` leaves the slot as it is. -/
theorem history_slot_most_recent_entered_witness :
    cstr "!!\n".toList = "!!\n".toList ∧
    (shell_iter (some "ls -l\n".toList) "!!\n".toList).last_command = some "ls -l\n".toList :=
  ⟨by decide, history_slot_most_recent_entered.2.1 (some "ls -l\n".toList) "!!\n".toList (by decide)⟩

/-! ## Facts about `strchr`, `slot` and `runs` used by the dispatcher -/

theorem strchr_none_iff (s : CStr) (c : Char) : strchr s c = none ↔ c ∉ s := by
  induction s with
  | nil => simp [strchr]
  | cons x xs ih =>
    by_cases h : x = c
    · simp [strchr, h]
    · have hc : ¬ c = x := fun e => h e.symm
      simp [strchr, h, hc, ih]

theorem strchr_isSome_iff (s : CStr) (c : Char) : (strchr s c).isSome = true ↔ c ∈ s := by
  rw [← not_iff_not, ← strchr_none_iff]
  cases strchr s c <;> simp

theorem strchr_append (a b : CStr) (c : Char) (h : c ∉ a) :
    strchr (a ++ c :: b) c = some a.length := by
  induction a with
  | nil => simp [strchr]
  | cons x xs ih =>
    have hx : ¬ x = c := fun e => h (by simp [e])
    have hxs : c ∉ xs := fun e => h (List.mem_cons_of_mem _ e)
    simp [strchr, hx, ih hxs]

theorem slot_parse_input (line : CStr) (k : Nat) :
    slot (parse_input line) k = ((runs line).take 63).get? k := by
  rw [parse_input_eq, slot_map_some]
  rfl

theorem slot_parse_input_zero (line : CStr) : slot (parse_input line) 0 = verb line := by
  rw [slot_parse_input]
  unfold verb
  cases runs line <;> rfl

/-- Every character of a line that is not a delimiter lies in one of its runs. -/
theorem mem_runs_of_mem (n : Nat) : ∀ (s : CStr) (c : Char), s.length ≤ n → c ∈ s →
    isDelim c = false → ∃ t ∈ runs s, c ∈ t := by
  induction n with
  | zero =>
    intro s c hl hc _
    have : s = [] := List.length_eq_zero.mp (Nat.le_zero.mp hl)
    rw [this] at hc
    cases hc
  | succ n ih =>
    intro s c hl hc hd
    cases s with
    | nil => cases hc
    | cons x xs =>
      by_cases hx : isDelim x = true
      · rw [runs_cons_delim x xs hx]
        have hne : c ≠ x := by
          intro e
          rw [e, hx] at hd
          cases hd
        have hmem : c ∈ xs := by
          cases hc with
          | head => exact absurd rfl hne
          | tail _ h => exact h
        exact ih xs c (by simpa using hl) hmem hd
      · have hx2 : isDelim x = false := by simpa using hx
        rw [runs_token x xs hx2]
        have hsplit := List.takeWhile_append_dropWhile (fun y => !isDelim y) (x :: xs)
        rw [← hsplit] at hc
        rcases List.mem_append.mp hc with h1 | h2
        · exact ⟨_, List.mem_cons_self _ _, h1⟩
        · cases hrest : (x :: xs).dropWhile (fun y => !isDelim y) with
          | nil => rw [hrest] at h2; cases h2
          | cons d r =>
            rw [hrest] at h2
            have hdd : isDelim d = true := by
              have := List.head_dropWhile_not (fun y => !isDelim y) (x :: xs) (by rw [hrest]; simp)
              simp only [hrest, List.head_cons] at this
              simpa using this
            have hne : c ≠ d := by
              intro e
              rw [e, hdd] at hd
              cases hd
            have hmem : c ∈ r := by
              cases h2 with
              | head => exact absurd rfl hne
              | tail _ h => exact h
            have hlen : r.length ≤ n := by
              have h3 : ((x :: xs).dropWhile (fun y => !isDelim y)).length ≤ (x :: xs).length :=
                (List.dropWhile_sublist _).length_le
              rw [hrest] at h3
              simp only [List.length_cons] at h3 hl
              omega
            obtain ⟨t, ht, hct⟩ := ih r c hlen hmem hd
            exact ⟨t, List.mem_cons_of_mem _ (by simpa using ht), hct⟩

/-! ## The Terminate state -/

theorem dispatch_stop_iff (line : CStr) :
    (dispatch line).2 = Control.stop ↔ line.take 4 = "exit".toList := by
  unfold dispatch
  by_cases h : line.take 4 = "exit".toList
  · have hs : strncmp_eq line "exit".toList 4 = true := by
      unfold strncmp_eq
      rw [h]
      rfl
    rw [if_pos hs]
    exact ⟨fun _ => h, fun _ => rfl⟩
  · have hs : ¬ strncmp_eq line "exit".toList 4 = true := by
      unfold strncmp_eq
      intro e
      exact h (eq_of_beq e)
    rw [if_neg hs]
    constructor
    · intro e
      exfalso
      revert e
      dsimp only
      repeat' split
      all_goals simp
    · intro e
      exact absurd e h

theorem shell_iter_stop_iff (last : Option CStr) (buf : List Char) (hs : slot_safe last) :
    (shell_iter last buf).control = Control.stop ↔ (cstr buf).take 4 = "exit".toList := by
  unfold shell_iter
  by_cases hr : cstr buf = "!!\n".toList
  · have hb : strcmp_eq (cstr buf) "!!\n".toList = true := by
      unfold strcmp_eq
      rw [hr]
      rfl
    rw [if_pos hb]
    have hne : ¬ (cstr buf).take 4 = "exit".toList := by
      rw [hr]
      decide
    cases last with
    | none => exact Iff.intro (fun e => by cases e) (fun e => absurd e hne)
    | some stored =>
      constructor
      · intro e
        exact absurd ((dispatch_stop_iff stored).mp e) (hs stored rfl)
      · intro e
        exact absurd e hne
  · have hb : ¬ strcmp_eq (cstr buf) "!!\n".toList = true := by
      unfold strcmp_eq
      intro e
      exact hr (eq_of_beq e)
    rw [if_neg hb]
    exact dispatch_stop_iff (cstr buf)

theorem shell_iter_safe (last : Option CStr) (buf : List Char) (hs : slot_safe last)
    (hc : (shell_iter last buf).control = Control.again) :
    slot_safe (shell_iter last buf).last_command := by
  rw [shell_iter_last_command]
  by_cases hb : strcmp_eq (cstr buf) "!!\n".toList = true
  · rw [if_pos hb]
    exact hs
  · rw [if_neg hb]
    intro h hh e
    cases hh
    have := (shell_iter_stop_iff last buf hs).mpr e
    rw [hc] at this
    cases this

theorem shell_loop_exit_iff (lines : List (List Char)) (buf : List Char) :
    ∀ last : Option CStr, slot_safe last → (shell_loop last lines).status = Status.eof →
      ((shell_loop last (lines ++ [buf])).status = Status.exited ↔
        (cstr buf).take 4 = "exit".toList) := by
  induction lines with
  | nil =>
    intro last hs _
    rw [← shell_iter_stop_iff last buf hs]
    simp only [List.nil_append, shell_loop]
    cases hc : (shell_iter last buf).control <;> simp
  | cons b rest ih =>
    intro last hs he
    cases hc : (shell_iter last b).control with
    | again =>
      have e1 : (shell_loop last (b :: rest)).status =
          (shell_loop (shell_iter last b).last_command rest).status := by
        simp [shell_loop, hc]
      have e2 : (shell_loop last (b :: rest ++ [buf])).status =
          (shell_loop (shell_iter last b).last_command (rest ++ [buf])).status := by
        simp [shell_loop, hc]
      rw [e2]
      exact ih _ (shell_iter_safe last b hs hc) (e1 ▸ he)
    | stop =>
      have : (shell_loop last (b :: rest)).status = Status.exited := by simp [shell_loop, hc]
      rw [this] at he
      cases he
    | fault =>
      have : (shell_loop last (b :: rest)).status = Status.crashed := by simp [shell_loop, hc]
      rw [this] at he
      cases he

/-- C5, as the claim states it, fails: the line `exitfoo` has the verb `exitfoo` and terminates
the shell, and the line ` exit` (a leading space) has the verb `exit` and does not. -/
theorem exit_verb_counterexample :
    (verb (cstr "exitfoo\n".toList) = some "exitfoo".toList ∧
      (shell_loop none ["exitfoo\n".toList]).status = Status.exited) ∧
    (verb (cstr " exit\n".toList) = some "exit".toList ∧
      (shell_loop none [" exit\n".toList, "ls\n".toList]).status = Status.eof ∧
      (shell_loop none [" exit\n".toList, "ls\n".toList]).iters = 2) := by
  decide

/-- C5, amended: a line read while the shell is running terminates it if and only if the line
begins with the four characters `exit` (the test `strncmp(line, "exit", 4)`), whatever follows
them; the same holds of the line the loop body settles on. -/
theorem exit_prefix_terminates :
    (∀ (lines : List (List Char)) (buf : List Char),
      (shell_loop none lines).status = Status.eof →
        ((shell_loop none (lines ++ [buf])).status = Status.exited ↔
          (cstr buf).take 4 = "exit".toList)) ∧
    (∀ line : CStr, (dispatch line).2 = Control.stop ↔ line.take 4 = "exit".toList) :=
  ⟨fun lines buf => shell_loop_exit_iff lines buf none (fun _ h => by cases h), dispatch_stop_iff⟩

/-- After `ls` and a recall, the line `exit now` terminates the shell. -/
theorem exit_prefix_terminates_witness :
    (shell_loop none ["ls\n".toList, "!!\n".toList]).status = Status.eof ∧
    (shell_loop none (["ls\n".toList, "!!\n".toList] ++ ["exit now\n".toList])).status
      = Status.exited :=
  ⟨by decide, (exit_prefix_terminates.1 ["ls\n".toList, "!!\n".toList] "exit now\n".toList
    (by decide)).mpr (by decide)⟩

/-! ## The Pipeline Splitter and the external launch -/

theorem dispatch_pipe (a b : CStr) (ha : '|' ∉ a)
    (he : (a ++ '|' :: b).take 4 ≠ "exit".toList) :
    dispatch (a ++ '|' :: b) =
      ([Event.execute_pipe (parse_input a) (parse_input b)], Control.again) := by
  have hs : strncmp_eq (a ++ '|' :: b) "exit".toList 4 = false := by
    unfold strncmp_eq
    exact beq_false_of_ne he
  have hpipe : strchr (a ++ '|' :: b) '|' = some a.length := strchr_append a b '|' ha
  have ht : (a ++ '|' :: b).take a.length = a := by simp
  have hd : (a ++ '|' :: b).drop (a.length + 1) = b := by
    rw [← List.drop_drop]
    simp
  unfold dispatch
  simp only [hs, hpipe, ht, hd, Bool.false_eq_true, if_false]

theorem dispatch_external (line v : CStr) (he : line.take 4 ≠ "exit".toList) (hp : '|' ∉ line)
    (hv : verb line = some v) (h1 : v ≠ "cd".toList) (h2 : v ≠ "pwd".toList)
    (h3 : v ≠ "sudoku".toList) (h4 : v ≠ "montecarlo".toList) :
    dispatch line =
      ([Event.execute_command (parse_input line) (decide ('&' ∈ line)), Event.reap],
        Control.again) := by
  have hs : strncmp_eq line "exit".toList 4 = false := by
    unfold strncmp_eq
    exact beq_false_of_ne he
  have hpipe : strchr line '|' = none := (strchr_none_iff line '|').mpr hp
  have hbg : (strchr line '&').isSome = decide ('&' ∈ line) := by
    rw [Bool.eq_iff_iff, strchr_isSome_iff]
    simp
  have c1 : strcmp_eq v "cd".toList = false := beq_false_of_ne h1
  have c2 : strcmp_eq v "pwd".toList = false := beq_false_of_ne h2
  have c3 : strcmp_eq v "sudoku".toList = false := beq_false_of_ne h3
  have c4 : strcmp_eq v "montecarlo".toList = false := beq_false_of_ne h4
  unfold dispatch
  simp only [hs, hpipe, slot_parse_input_zero, hv, c1, c2, c3, c4, hbg, Bool.false_eq_true,
    if_false]

theorem shell_iter_entered (last : Option CStr) (buf : List Char)
    (h : cstr buf ≠ "!!\n".toList) :
    shell_iter last buf =
      ⟨(dispatch (cstr buf)).1, some (cstr buf), (dispatch (cstr buf)).2⟩ := by
  have hb : strcmp_eq (cstr buf) "!!\n".toList = false := by
    unfold strcmp_eq
    exact beq_false_of_ne h
  unfold shell_iter
  rw [hb]
  rfl

theorem shell_iter_recall (stored : CStr) (buf : List Char) (h : cstr buf = "!!\n".toList) :
    shell_iter (some stored) buf =
      ⟨Event.print stored :: (dispatch stored).1, some stored, (dispatch stored).2⟩ := by
  have hb : strcmp_eq (cstr buf) "!!\n".toList = true := by
    unfold strcmp_eq
    rw [h]
    rfl
  unfold shell_iter
  rw [hb]
  rfl

/-- C3, as the claim states it, fails: the line `exit | wc` contains a pipe character, yet the
loop body leaves through `break` and never calls `execute_pipe`. -/
theorem pipe_split_counterexample :
    '|' ∈ cstr "exit | wc\n".toList ∧
    shell_iter none "exit | wc\n".toList =
      ⟨[], some "exit | wc\n".toList, Control.stop⟩ := by
  decide

/-- C3, amended: for every line `a ++ "|" ++ b` with no pipe character in `a` that does not
begin with `exit`, the loop body calls `execute_pipe` once, with the tokenization of `a` (the
text before the first pipe character) and the tokenization of `b` (all text after it), each the
first 63 maximal runs of its text; the same holds when that line is recalled from the History
Slot.  A later pipe character is no separator: it lies in a run of `b`, hence in the right
vector whenever `b` has at most 63 runs. -/
theorem pipe_split_at_first (a b : CStr) (ha : '|' ∉ a)
    (he : (a ++ '|' :: b).take 4 ≠ "exit".toList) :
    (∀ (last : Option CStr) (buf : List Char), cstr buf = a ++ '|' :: b →
      shell_iter last buf =
        ⟨[Event.execute_pipe (parse_input a) (parse_input b)], some (a ++ '|' :: b),
          Control.again⟩) ∧
    (∀ buf : List Char, cstr buf = "!!\n".toList →
      shell_iter (some (a ++ '|' :: b)) buf =
        ⟨[Event.print (a ++ '|' :: b), Event.execute_pipe (parse_input a) (parse_input b)],
          some (a ++ '|' :: b), Control.again⟩) ∧
    argv (parse_input a) = (runs a).take 63 ∧
    argv (parse_input b) = (runs b).take 63 ∧
    ('|' ∈ b → ∃ t ∈ runs b, '|' ∈ t) ∧
    ('|' ∈ b → (runs b).length ≤ 63 → ∃ t ∈ argv (parse_input b), '|' ∈ t) := by
  have hd := dispatch_pipe a b ha he
  refine ⟨?_, ?_, argv_parse_input a, argv_parse_input b, ?_, ?_⟩
  · intro last buf hb
    have hr : cstr buf ≠ "!!\n".toList := by
      intro e
      have hm : '|' ∈ cstr buf := by
        rw [hb]
        simp
      rw [e] at hm
      revert hm
      decide
    rw [shell_iter_entered last buf hr, hb, hd]
  · intro buf hb
    rw [shell_iter_recall _ buf hb, hd]
  · intro hm
    exact mem_runs_of_mem b.length b '|' (le_refl _) hm (by decide)
  · intro hm hl
    rw [argv_parse_input, List.take_of_length_le hl]
    exact mem_runs_of_mem b.length b '|' (le_refl _) hm (by decide)

/-- The line `ls | wc | cat` is split into `ls` and `wc | cat`. -/
theorem pipe_split_at_first_witness :
    '|' ∉ "ls ".toList ∧ ("ls ".toList ++ '|' :: " wc | cat\n".toList).take 4 ≠ "exit".toList ∧
    cstr "ls | wc | cat\n".toList = "ls ".toList ++ '|' :: " wc | cat\n".toList ∧
    shell_iter none "ls | wc | cat\n".toList =
      ⟨[Event.execute_pipe [some "ls".toList, none]
          [some "wc".toList, some "|".toList, some "cat".toList, none]],
        some "ls | wc | cat\n".toList, Control.again⟩ :=
  ⟨by decide, by decide, by decide,
    ((pipe_split_at_first "ls ".toList " wc | cat\n".toList (by decide) (by decide)).1 none
      "ls | wc | cat\n".toList (by decide)).trans (by decide)⟩

/-- C10, as the claim states it, fails: the line `exit` is no pipeline, its first token `exit`
is none of `cd`, `pwd`, `sudoku`, `montecarlo`, and `execute_command` is not called; and on
the recall line the vector is the tokenization of the stored line, not of `!!`. -/
theorem external_launch_counterexample :
    ('|' ∉ cstr "exit\n".toList ∧ verb (cstr "exit\n".toList) = some "exit".toList ∧
      shell_iter none "exit\n".toList = ⟨[], some "exit\n".toList, Control.stop⟩) ∧
    ('|' ∉ cstr "!!\n".toList ∧ verb (cstr "!!\n".toList) = some "!!".toList ∧
      (shell_iter (some "ls\n".toList) "!!\n".toList).events =
        [Event.print "ls\n".toList, Event.execute_command [some "ls".toList, none] false,
          Event.reap]) := by
  decide

/-- C10, amended: for every line without a pipe character that does not begin with `exit` and
whose first token exists and is none of `cd`, `pwd`, `sudoku`, `montecarlo`, the loop body
(on the line as entered, when it is not the recall line, or as recalled from the History Slot)
calls `execute_command` with the tokenization of the whole line and with `background` set
exactly when the line contains `&`; the vector is the first 63 maximal runs of the line, and the
`&` lies in one of the runs, so it reaches the program whenever the line has at most 63. -/
theorem external_launch_keeps_marker (line v : CStr) (he : line.take 4 ≠ "exit".toList)
    (hp : '|' ∉ line) (hv : verb line = some v) (h1 : v ≠ "cd".toList) (h2 : v ≠ "pwd".toList)
    (h3 : v ≠ "sudoku".toList) (h4 : v ≠ "montecarlo".toList) :
    (∀ (last : Option CStr) (buf : List Char), cstr buf = line → line ≠ "!!\n".toList →
      shell_iter last buf =
        ⟨[Event.execute_command (parse_input line) (decide ('&' ∈ line)), Event.reap],
          some line, Control.again⟩) ∧
    (∀ buf : List Char, cstr buf = "!!\n".toList →
      shell_iter (some line) buf =
        ⟨[Event.print line, Event.execute_command (parse_input line) (decide ('&' ∈ line)),
            Event.reap], some line, Control.again⟩) ∧
    argv (parse_input line) = (runs line).take 63 ∧
    ('&' ∈ line → ∃ t ∈ runs line, '&' ∈ t) ∧
    ('&' ∈ line → (runs line).length ≤ 63 → ∃ t ∈ argv (parse_input line), '&' ∈ t) := by
  have hd := dispatch_external line v he hp hv h1 h2 h3 h4
  refine ⟨?_, ?_, argv_parse_input line, ?_, ?_⟩
  · intro last buf hb hr
    rw [shell_iter_entered last buf (hb ▸ hr), hb, hd]
  · intro buf hb
    rw [shell_iter_recall _ buf hb, hd]
  · intro hm
    exact mem_runs_of_mem line.length line '&' (le_refl _) hm (by decide)
  · intro hm hl
    rw [argv_parse_input, List.take_of_length_le hl]
    exact mem_runs_of_mem line.length line '&' (le_refl _) hm (by decide)

/-- The line `sleep 5 &` is launched in the background with the vector `sleep`, `5`, `&`. -/
theorem external_launch_keeps_marker_witness :
    ("sleep 5 &\n".toList.take 4 ≠ "exit".toList ∧ '|' ∉ "sleep 5 &\n".toList ∧
      verb "sleep 5 &\n".toList = some "sleep".toList) ∧
    shell_iter none "sleep 5 &\n".toList =
      ⟨[Event.execute_command [some "sleep".toList, some "5".toList, some "&".toList, none] true,
          Event.reap], some "sleep 5 &\n".toList, Control.again⟩ :=
  ⟨by decide,
    ((external_launch_keeps_marker "sleep 5 &\n".toList "sleep".toList (by decide) (by decide)
      (by decide) (by decide) (by decide) (by decide) (by decide)).1 none "sleep 5 &\n".toList
      (by decide) (by decide)).trans (by decide)⟩

/-! ## The `continue` paths of the loop body and the `montecarlo` dispatch -/

/-- C6: the pipeline path has no check for an empty side.  On the lines `|`, `| wc` and `ls |`
the loop body calls `execute_pipe` with a vector whose first slot is the null sentinel, and
that call forks its two children whatever the vectors hold; only the single-command path skips
an empty command. -/
theorem pipeline_empty_side_still_forks :
    shell_iter none "|\n".toList =
      ⟨[Event.execute_pipe [none] [none]], some "|\n".toList, Control.again⟩ ∧
    shell_iter none "| wc\n".toList =
      ⟨[Event.execute_pipe [none] [some "wc".toList, none]], some "| wc\n".toList,
        Control.again⟩ ∧
    shell_iter none "ls |\n".toList =
      ⟨[Event.execute_pipe [some "ls".toList, none] [none]], some "ls |\n".toList,
        Control.again⟩ ∧
    ((shell_iter none "|\n".toList).events.map forks).sum = 2 ∧
    (execute_pipe ⟨0, 1, []⟩ 0 0).1.next_pid = 3 ∧
    shell_iter none " \t\n".toList = ⟨[], some " \t\n".toList, Control.again⟩ := by
  decide

/-- C7: the pipeline path leaves the loop body through `continue` before the sweep.  On the
line `ls | wc` the only call is `execute_pipe`, and the next prompt follows it with no sweep
in between; the empty command and the recall on an empty History Slot leave the same way. -/
theorem pipeline_iteration_skips_reap :
    shell_iter none "ls | wc\n".toList =
      ⟨[Event.execute_pipe [some "ls".toList, none] [some "wc".toList, none]],
        some "ls | wc\n".toList, Control.again⟩ ∧
    (shell_loop none ["ls | wc\n".toList, "pwd\n".toList]).events =
      [Event.prompt, Event.execute_pipe [some "ls".toList, none] [some "wc".toList, none],
        Event.prompt, Event.pwd, Event.reap, Event.prompt] ∧
    (shell_loop none ["\n".toList]).events = [Event.prompt, Event.prompt] ∧
    (shell_loop none ["!!\n".toList]).events =
      [Event.prompt, Event.print "No commands in history\n".toList, Event.prompt] := by
  decide

/-- C8: the dispatcher hands `args[1]` and `args[2]` to `atoi` and `atol` unchecked.  On the
line `montecarlo` slot 1 holds the null sentinel, on `montecarlo 4` slot 2 does, and the call
is undefined behaviour: no `monte_carlo` call is made and the run ends there.  With both
tokens present the call is made, a token without leading digits counting as 0. -/
theorem montecarlo_missing_token_faults :
    (slot (parse_input "montecarlo\n".toList) 1 = none ∧
      shell_iter none "montecarlo\n".toList =
        ⟨[], some "montecarlo\n".toList, Control.fault⟩) ∧
    (slot (parse_input "montecarlo 4\n".toList) 2 = none ∧
      shell_iter none "montecarlo 4\n".toList =
        ⟨[], some "montecarlo 4\n".toList, Control.fault⟩) ∧
    ((shell_loop none ["montecarlo\n".toList, "pwd\n".toList]).status = Status.crashed ∧
      (shell_loop none ["montecarlo\n".toList, "pwd\n".toList]).iters = 1) ∧
    (shell_iter none "montecarlo 4 1000\n".toList).events =
      [Event.monte_carlo 4 1000, Event.reap] ∧
    (shell_iter none "montecarlo four many\n".toList).events =
      [Event.monte_carlo 0 0, Event.reap] := by
  decide

/-! ## Waiting for the children of a pipeline -/

/-- The sweep runs to its end within its bound: afterwards no child that has terminated is
left uncollected, and the clock has not moved. -/
theorem reap_loop_complete (n : Nat) : ∀ w : Procs, w.children.length ≤ n →
    (reap_loop n w).now = w.now ∧ ∀ c ∈ (reap_loop n w).children, w.now < c.exit_at := by
  induction n with
  | zero =>
    intro w hl
    have : w.children = [] := List.length_eq_zero.mp (Nat.le_zero.mp hl)
    refine ⟨rfl, ?_⟩
    intro c hc
    simp only [reap_loop, this] at hc
    cases hc
  | succ n ih =>
    intro w hl
    cases hf : w.children.find? (fun c => decide (c.exit_at ≤ w.now)) with
    | none =>
      have e : reap_loop (n + 1) w = w := by
        simp [reap_loop, waitpid_nohang, hf]
      rw [e]
      refine ⟨rfl, ?_⟩
      intro c hc
      have := List.find?_eq_none.mp hf c hc
      simpa using this
    | some z =>
      have hz : z ∈ w.children := List.mem_of_find?_eq_some hf
      have e : reap_loop (n + 1) w =
          reap_loop n { w with children := w.children.filter (fun d => d.pid != z.pid) } := by
        simp [reap_loop, waitpid_nohang, hf]
      have hlt : (w.children.filter (fun d => d.pid != z.pid)).length < w.children.length :=
        List.length_filter_lt_length_iff_exists.mpr ⟨z, hz, by simp⟩
      rw [e]
      exact ih _ (by simp only; omega)

theorem reap_complete (w : Procs) :
    (reap w).now = w.now ∧ ∀ c ∈ (reap w).children, w.now < c.exit_at :=
  reap_loop_complete w.children.length w (le_refl _)

/-- With no other child of the shell around, `execute_pipe` returns after both of its children
have terminated and been collected. -/
theorem execute_pipe_alone (now next_pid left_runtime right_runtime : Nat) :
    (execute_pipe ⟨now, next_pid, []⟩ left_runtime right_runtime).1.children = [] := by
  by_cases h : now + left_runtime ≤ now + right_runtime
  · simp [execute_pipe, fork, wait_any, first_to_exit, h]
  · simp [execute_pipe, fork, wait_any, first_to_exit, h]

/-- C4: `execute_pipe` waits with `wait(NULL)`, which collects any child.  After the lines
`echo hi &` and, two time units later, `sleep 1 | sleep 10`, the first `wait` collects the
background child, which has terminated and was not yet collected, the second collects the left
child at time 3, and `execute_pipe` returns while the right child runs until time 12; the
next prompt follows. -/
theorem execute_pipe_returns_while_child_runs :
    (shell_loop none ["echo hi &\n".toList, "sleep 1 | sleep 10\n".toList]).events =
      [Event.prompt,
        Event.execute_command [some "echo".toList, some "hi".toList, some "&".toList, none] true,
        Event.reap,
        Event.prompt,
        Event.execute_pipe [some "sleep".toList, some "1".toList, none]
          [some "sleep".toList, some "10".toList, none],
        Event.prompt] ∧
    reap (execute_command ⟨0, 1, []⟩ 1 true) = ⟨0, 2, [⟨1, 1⟩]⟩ ∧
    background_then_pipeline 1 2 1 10 = (⟨3, 4, [⟨3, 12⟩]⟩, 2, 3) ∧
    running (background_then_pipeline 1 2 1 10).1 (background_then_pipeline 1 2 1 10).2.2 = true := by
  decide

/-! ## The Validator -/

theorem getD_set_true (seen : List Bool) (i j : Nat) (hi : i < seen.length) :
    (seen.set i true).getD j false = (decide (i = j) || seen.getD j false) := by
  induction seen generalizing i j with
  | nil => cases hi
  | cons b bs ih =>
    cases i with
    | zero =>
      cases j with
      | zero => simp
      | succ j => simp
    | succ i =>
      cases j with
      | zero => simp
      | succ j =>
        have := ih i j (by simpa using hi)
        simpa using this

theorem check_row_loop_eq (row : Fin 9 → Int) (hrow : ∀ c, 0 ≤ row c ∧ row c ≤ 9) :
    ∀ (cols : List (Fin 9)) (seen : List Bool), seen.length = 10 →
      check_row_loop row cols seen =
        some (decide ((cols.map row).Nodup ∧
          ∀ c ∈ cols, seen.getD (row c).toNat false = false)) := by
  intro cols
  induction cols with
  | nil => intro seen _; simp [check_row_loop]
  | cons c cs ih =>
    intro seen hlen
    have hr := hrow c
    have hrange : ¬ (row c < 0 ∨ 10 ≤ row c) := by omega
    have hidx : (row c).toNat < seen.length := by omega
    unfold check_row_loop
    rw [if_neg hrange]
    by_cases hs : seen.getD (row c).toNat false = true
    · rw [if_pos hs]
      congr 1
      symm
      rw [decide_eq_false_iff_not]
      intro h
      have := h.2 c (List.mem_cons_self _ _)
      rw [hs] at this
      cases this
    · rw [if_neg hs, ih (seen.set (row c).toNat true) (by simpa using hlen)]
      congr 1
      rw [decide_eq_decide]
      have hs2 : seen.getD (row c).toNat false = false := by simpa using hs
      simp only [List.map_cons, List.nodup_cons, List.mem_cons, forall_eq_or_imp,
        getD_set_true seen _ _ hidx, Bool.or_eq_false_iff, decide_eq_false_iff_not, hs2,
        true_and, List.mem_map, not_exists, not_and]
      constructor
      · rintro ⟨hn, h⟩
        refine ⟨⟨?_, hn⟩, fun x hx => (h x hx).2⟩
        intro x hx e
        have h1 := (h x hx).1
        have h2 := hrow x
        apply h1
        rw [e]
      · rintro ⟨⟨hne, hn⟩, h⟩
        refine ⟨hn, fun x hx => ⟨?_, h x hx⟩⟩
        intro e
        have h2 := hrow x
        exact hne x hx (by omega)

theorem check_row_eq (g : Grid) (hg : ∀ r c, 0 ≤ g r c ∧ g r c ≤ 9) (r : Fin 9) :
    check_row g r = some (decide (∀ c1 c2 : Fin 9, g r c1 = g r c2 → c1 = c2)) := by
  unfold check_row
  rw [check_row_loop_eq (g r) (hg r) _ _ (by simp)]
  congr 1
  rw [decide_eq_decide]
  constructor
  · rintro ⟨hn, _⟩ c1 c2 e
    exact List.inj_on_of_nodup_map hn (List.mem_finRange c1) (List.mem_finRange c2) e
  · intro h
    refine ⟨(List.nodup_map_iff_inj_on (List.nodup_finRange 9)).mpr
      (fun x _ y _ e => h x y e), ?_⟩
    intro c _
    have h2 := hg r c
    have : (g r c).toNat < 10 := by omega
    generalize (g r c).toNat = k at this
    interval_cases k <;> rfl

theorem join_loop_eq (g : Grid) (hg : ∀ r c, 0 ≤ g r c ∧ g r c ≤ 9) :
    ∀ (rows : List (Fin 9)) (valid : Bool),
      join_loop g rows valid =
        some (valid && decide (∀ r ∈ rows, ∀ c1 c2 : Fin 9, g r c1 = g r c2 → c1 = c2)) := by
  intro rows
  induction rows with
  | nil => intro valid; simp [join_loop]
  | cons r rest ih =>
    intro valid
    unfold join_loop
    rw [check_row_eq g hg r]
    simp only [ih]
    congr 1
    by_cases h : ∀ c1 c2 : Fin 9, g r c1 = g r c2 → c1 = c2
    · have e2 : decide (∀ r2 ∈ r :: rest, ∀ c1 c2 : Fin 9, g r2 c1 = g r2 c2 → c1 = c2) =
          decide (∀ r2 ∈ rest, ∀ c1 c2 : Fin 9, g r2 c1 = g r2 c2 → c1 = c2) := by
        rw [decide_eq_decide, List.forall_mem_cons]
        exact ⟨fun k => k.2, fun k => ⟨h, k⟩⟩
      rw [decide_eq_true h, e2]
      rfl
    · have e2 : decide (∀ r2 ∈ r :: rest, ∀ c1 c2 : Fin 9, g r2 c1 = g r2 c2 → c1 = c2) =
          false := by
        rw [decide_eq_false_iff_not, List.forall_mem_cons]
        exact fun k => h k.1
      rw [decide_eq_false h, e2]
      simp

theorem run_sudoku_eq (g : Grid) (hg : ∀ r c, 0 ≤ g r c ∧ g r c ≤ 9) :
    run_sudoku g =
      some (if (∀ r c1 c2 : Fin 9, g r c1 = g r c2 → c1 = c2) then "Sudoku is valid\n".toList
        else "Sudoku is invalid\n".toList) := by
  unfold run_sudoku
  rw [join_loop_eq g hg]
  by_cases h : ∀ r c1 c2 : Fin 9, g r c1 = g r c2 → c1 = c2
  · have h2 : ∀ r ∈ List.finRange 9, ∀ c1 c2 : Fin 9, g r c1 = g r c2 → c1 = c2 :=
      fun r _ => h r
    simp only [Option.map_some', Bool.true_and, decide_eq_true h2, if_true, if_pos h]
  · have h2 : ¬ ∀ r ∈ List.finRange 9, ∀ c1 c2 : Fin 9, g r c1 = g r c2 → c1 = c2 :=
      fun k => h (fun r => k r (List.mem_finRange r))
    simp only [Option.map_some', Bool.true_and, decide_eq_false h2, if_neg h]
    rfl

theorem sudoku_range : ∀ r c : Fin 9, 1 ≤ sudoku r c ∧ sudoku r c ≤ 9 := by
  decide

/-- C9: `run_sudoku` prints "valid" on the built-in grid; on every grid with entries in `0..9`
it prints "invalid" exactly when some row holds the same value in two different columns, and
"valid" otherwise; and the built-in grid with one cell replaced by a different value that
occurs in the cell's row makes it print "invalid". -/
theorem run_sudoku_detects_row_duplicates :
    run_sudoku sudoku = some "Sudoku is valid\n".toList ∧
    (∀ g : Grid, (∀ r c, 0 ≤ g r c ∧ g r c ≤ 9) →
      (run_sudoku g = some "Sudoku is invalid\n".toList ↔
        ∃ r c1 c2, c1 ≠ c2 ∧ g r c1 = g r c2) ∧
      (run_sudoku g = some "Sudoku is valid\n".toList ↔
        ¬ ∃ r c1 c2, c1 ≠ c2 ∧ g r c1 = g r c2)) ∧
    (∀ (r c : Fin 9) (v : Int), v ≠ sudoku r c → (∃ c2, sudoku r c2 = v) →
      run_sudoku (set_cell sudoku r c v) = some "Sudoku is invalid\n".toList) := by
  have key : ∀ g : Grid, (∀ r c, 0 ≤ g r c ∧ g r c ≤ 9) →
      (run_sudoku g = some "Sudoku is invalid\n".toList ↔
        ∃ r c1 c2, c1 ≠ c2 ∧ g r c1 = g r c2) ∧
      (run_sudoku g = some "Sudoku is valid\n".toList ↔
        ¬ ∃ r c1 c2, c1 ≠ c2 ∧ g r c1 = g r c2) := by
    intro g hg
    rw [run_sudoku_eq g hg]
    have hne : "Sudoku is valid\n".toList ≠ "Sudoku is invalid\n".toList := by decide
    by_cases h : ∀ r c1 c2 : Fin 9, g r c1 = g r c2 → c1 = c2
    · have hno : ¬ ∃ r c1 c2, c1 ≠ c2 ∧ g r c1 = g r c2 := by
        rintro ⟨r, c1, c2, hc, e⟩
        exact hc (h r c1 c2 e)
      rw [if_pos h]
      refine ⟨⟨fun e => absurd (Option.some.inj e) hne, fun e => absurd e hno⟩,
        ⟨fun _ => hno, fun _ => rfl⟩⟩
    · have hyes : ∃ r c1 c2, c1 ≠ c2 ∧ g r c1 = g r c2 := by
        by_contra hcon
        apply h
        intro r c1 c2 e
        by_contra hc
        exact hcon ⟨r, c1, c2, hc, e⟩
      rw [if_neg h]
      refine ⟨⟨fun _ => hyes, fun _ => rfl⟩,
        ⟨fun e => absurd (Option.some.inj e).symm hne, fun e => absurd hyes e⟩⟩
  refine ⟨by decide, key, ?_⟩
  rintro r c v hv ⟨c2, hc2⟩
  have hrange : ∀ r2 c3, 0 ≤ set_cell sudoku r c v r2 c3 ∧ set_cell sudoku r c v r2 c3 ≤ 9 := by
    intro r2 c3
    unfold set_cell
    have h1 := sudoku_range r2 c3
    have h2 := sudoku_range r c2
    split
    · omega
    · omega
  refine ((key _ hrange).1).mpr ⟨r, c, c2, ?_, ?_⟩
  · intro e
    rw [← e] at hc2
    exact hv hc2.symm
  · have hcc : c2 ≠ c := by
      intro e
      rw [e] at hc2
      exact hv hc2.symm
    simp [set_cell, hcc, hc2]

/-- The built-in grid with a second 7 in its first row is reported invalid. -/
theorem run_sudoku_detects_row_duplicates_witness :
    ((7 : Int) ≠ sudoku 0 0 ∧ ∃ c2, sudoku 0 c2 = 7) ∧
    run_sudoku (set_cell sudoku 0 0 7) = some "Sudoku is invalid\n".toList :=
  ⟨by decide, run_sudoku_detects_row_duplicates.2.2 0 0 7 (by decide) (by decide)⟩

end OsProject
